import Mathlib

/-!
# chainbase level_pod_map

A shallow embedding of `include/chainbase/level_pod_map.hpp`: the typed, ordered
key-value map that chainbase layers over LevelDB.

* `leveldb` holds a reference model of the storage engine as the header uses it:
  statuses, a database as a list of live entries kept ascending under the
  comparator it was opened with, and cursors over a snapshot of that list.
  Every engine call takes the status `st` the storage layer reports for the
  call (`Status.ok` when nothing goes wrong), so that every status branch of
  the header can be reached.
* `chainbase.db` holds the header itself, function by function, with the
  outcome of a call made explicit: a returned value, an exception that reaches
  the caller, a failed assertion, or undefined behaviour.
-/

namespace leveldb

/-- The kinds of `leveldb::Status` the header distinguishes. -/
inductive Status where
  | ok
  | notFound
  | corruption
  | ioError
  deriving DecidableEq, Repr

/-- The member `Status::ok()`. -/
def Status.isOk : Status → Bool
  | .ok => true
  | _ => false

/-- The member `Status::IsNotFound()`. -/
def Status.IsNotFound : Status → Bool
  | .notFound => true
  | _ => false

/-- A `leveldb::Slice`: a sequence of bytes. -/
abbrev Slice := List Nat

/-- An entry as the engine holds it: key bytes and value bytes. -/
abbrev Entry := Slice × Slice

/-- The fields of `leveldb::ReadOptions` the header sets. -/
structure ReadOptions where
  verify_checksums : Bool
  fill_cache : Bool
  deriving DecidableEq, Repr

/-- The field of `leveldb::WriteOptions` the header sets. -/
structure WriteOptions where
  sync : Bool
  deriving DecidableEq, Repr

/-- A block cache made by `NewLRUCache(capacity)`. -/
structure Cache where
  capacity : Nat
  deriving DecidableEq, Repr

/-- The two values of `leveldb::CompressionType`. -/
inductive CompressionType where
  | kNoCompression
  | kSnappyCompression
  deriving DecidableEq, Repr

/-- The fields of `leveldb::Options` the header sets. -/
structure Options where
  comparator : Slice → Slice → Int
  create_if_missing : Bool
  max_open_files : Nat
  compression : CompressionType
  write_buffer_size : Nat
  block_cache : Option Cache
  paranoid_checks : Bool

/-- A database instance: its live entries, ascending under the comparator. -/
structure DB where
  entries : List Entry
  deriving DecidableEq, Repr

/-- The value bytes held under the key that compares equal to `key`. -/
def lookup (cmp : Slice → Slice → Int) (key : Slice) : List Entry → Option Slice
  | [] => none
  | e :: es => if cmp e.1 key = 0 then some e.2 else lookup cmp key es

/-- Placement of an entry at its position in the order, replacing the entry
whose key compares equal. -/
def insertEntry (cmp : Slice → Slice → Int) (key value : Slice) : List Entry → List Entry
  | [] => [(key, value)]
  | e :: es =>
    if cmp key e.1 < 0 then (key, value) :: e :: es
    else if cmp key e.1 = 0 then (key, value) :: es
    else e :: insertEntry cmp key value es

/-- Removal of the entry (if any) whose key compares equal to `key`. -/
def eraseEntry (cmp : Slice → Slice → Int) (key : Slice) (es : List Entry) : List Entry :=
  es.filter (fun e => !decide (cmp e.1 key = 0))

/-- The call `DB::Get(options, key, &value)`: the status and the bytes written to
`value`. A fault reported by the storage layer is returned as it is; without
one the status is `notFound` exactly when no entry has the key. -/
def DB.Get (cmp : Slice → Slice → Int) (db : DB) (_options : ReadOptions) (st : Status)
    (key : Slice) : Status × Slice :=
  if st.isOk then
    match lookup cmp key db.entries with
    | some v => (Status.ok, v)
    | none => (Status.notFound, [])
  else (st, [])

/-- The call `DB::Put(options, key, value)`: the status and the database after the
call. The entry is written exactly when the status is ok. -/
def DB.Put (cmp : Slice → Slice → Int) (db : DB) (_options : WriteOptions) (st : Status)
    (key value : Slice) : Status × DB :=
  if st.isOk then (st, { entries := insertEntry cmp key value db.entries }) else (st, db)

/-- The call `DB::Delete(options, key)`: the status and the database after the call.
LevelDB documents it as removing the entry (if any) for the key and returning ok
on success, a missing key not being an error; the status is whatever the
storage layer reports, and the entry is removed exactly when it is ok. -/
def DB.Delete (cmp : Slice → Slice → Int) (db : DB) (_options : WriteOptions) (st : Status)
    (key : Slice) : Status × DB :=
  if st.isOk then (st, { entries := eraseEntry cmp key db.entries }) else (st, db)

/-- A `leveldb::Iterator`: a snapshot of the entries, a position in it (valid
while below the length) and the status of the cursor. -/
structure Iterator where
  entries : List Entry
  pos : Nat
  st : Status
  deriving DecidableEq, Repr

/-- The call `DB::NewIterator(options)`: a cursor not yet positioned; when the
storage layer reports a fault, an empty cursor that carries the fault. -/
def DB.NewIterator (db : DB) (_options : ReadOptions) (st : Status) : Iterator :=
  if st.isOk then { entries := db.entries, pos := db.entries.length, st := st }
  else { entries := [], pos := 0, st := st }

/-- The member `Iterator::Valid()`. -/
def Iterator.Valid (it : Iterator) : Bool := decide (it.pos < it.entries.length)

/-- The member `Iterator::status()`. -/
def Iterator.status (it : Iterator) : Status := it.st

/-- The entry under the cursor, when the cursor is valid. -/
def Iterator.current (it : Iterator) : Option Entry := it.entries.get? it.pos

/-- The member `Iterator::SeekToFirst()`. -/
def Iterator.SeekToFirst (it : Iterator) : Iterator := { it with pos := 0 }

/-- The member `Iterator::SeekToLast()`. -/
def Iterator.SeekToLast (it : Iterator) : Iterator := { it with pos := it.entries.length - 1 }

/-- The member `Iterator::Seek(target)`: the first entry whose key is at or past
`target` under the comparator. -/
def Iterator.Seek (cmp : Slice → Slice → Int) (it : Iterator) (target : Slice) : Iterator :=
  { it with pos := it.entries.findIdx (fun e => decide (0 ≤ cmp e.1 target)) }

/-- The member `Iterator::Next()`; it requires a valid cursor. -/
def Iterator.Next (it : Iterator) : Iterator :=
  if it.Valid then { it with pos := it.pos + 1 } else it

/-- The member `Iterator::Prev()`; it requires a valid cursor, and leaves the
cursor invalid when it stood on the first entry. -/
def Iterator.Prev (it : Iterator) : Iterator :=
  if it.Valid then
    (if it.pos = 0 then { it with pos := it.entries.length } else { it with pos := it.pos - 1 })
  else it

end leveldb

namespace chainbase.db

open leveldb

/-- The operations of the template parameter `Key`, a POD type: its size, its
object representation (`(char *) &k, sizeof(k)`), the reading of bytes as a
key (`*((Key *) data)`), and its native `<` and `==`. -/
structure PodKey (Key : Type) where
  size : Nat
  toSlice : Key → Slice
  ofSlice : Slice → Key
  lt : Key → Key → Bool
  eq : Key → Key → Bool

/-- The two functions of `fc::raw` the header calls on the template parameter
`Value`: `pack`, and `unpack`, which fails on bytes it cannot decode. -/
structure Codec (Value : Type) where
  pack : Value → Slice
  unpack : Slice → Option Value

/-- The exceptions thrown inside the header. -/
inductive Exn where
  | key_not_found_exception
  | level_pod_map_failure
  | unpack_failure
  | filesystem_error
  | upgrade_failure
  deriving DecidableEq, Repr

/-- What the caller of a member function observes: a returned value, an
exception that leaves the function, a failed `assert` (the process is
aborted), or undefined behaviour (control runs off the end of a function that
returns a value, or a null or unpositioned handle is read). -/
inductive Outcome (α : Type) where
  | returned (a : α)
  | thrown (e : Exn)
  | aborted
  | undefined
  deriving DecidableEq, Repr

/-- The handler `catch (...) {}` closing the body of a function that returns a
value: the exception is discarded and control reaches the end of the function
without a return statement. -/
def catchDiscard {α : Type} : Outcome α → Outcome α
  | .thrown _ => .undefined
  | o => o

/-- The handler `catch (...) {}` closing the body of a `void` function: the
exception is discarded and the function returns. -/
def catchDiscardVoid : Outcome Unit → Outcome Unit
  | .thrown _ => .returned ()
  | o => o

/-- Modelled from the spec: FC_RETHROW_EXCEPTIONS, a handler of the fc library
that is not part of the sources; the failure caught is surfaced to the caller
(section 7: failures are surfaced as distinct, inspectable failures). -/
def FC_RETHROW_EXCEPTIONS {α : Type} (body : Outcome α) : Outcome α := body

/-- Lines 282-284 of `key_compare::Compare`: the three-way comparison of the two
keys read from the slices. -/
def key_compare.compareKeys {Key : Type} (P : PodKey Key) (ak bk : Key) : Int :=
  if P.lt ak bk then -1
  else if P.eq ak bk then 0
  else 1

/-- The member `key_compare::Compare(a, b)`; `none` is the failed assertion on the
sizes of the two slices. -/
def key_compare.Compare {Key : Type} (P : PodKey Key) (a b : Slice) : Option Int :=
  if a.length = P.size ∧ b.length = P.size then
    some (key_compare.compareKeys P (P.ofSlice a) (P.ofSlice b))
  else none

/-- The comparator as the engine calls it on the keys it holds (`opts.comparator =
&_comparer`): `Compare` past its assertion. -/
def key_compare.order {Key : Type} (P : PodKey Key) (a b : Slice) : Int :=
  key_compare.compareKeys P (P.ofSlice a) (P.ofSlice b)

/-- The target directory as `open` meets it: whether `create_directories`
succeeds, the status and instance `DB::Open` yields for given options, whether
`try_upgrade_db` completes, and the version constants of the engine. -/
structure Directory where
  create_directories : Bool
  Open : Options → Status × DB
  try_upgrade_db : Bool
  kMajorVersion : Nat
  kMinorVersion : Nat

/-- The data members of `level_pod_map<Key, Value>` (the comparator `_comparer` has
no state). -/
structure level_pod_map where
  _db : Option DB
  _cache : Option Cache
  _read_options : ReadOptions
  _iter_options : ReadOptions
  _write_options : WriteOptions
  _sync_options : WriteOptions
  deriving DecidableEq, Repr

/-- A handle as its constructor leaves it: closed, no cache, default options. -/
def level_pod_map.init : level_pod_map :=
  { _db := none, _cache := none,
    _read_options := { verify_checksums := false, fill_cache := true },
    _iter_options := { verify_checksums := false, fill_cache := true },
    _write_options := { sync := false },
    _sync_options := { sync := false } }

/-- The member `is_open()`. -/
def level_pod_map.is_open (m : level_pod_map) : Bool := m._db.isSome

/-- The `try` block of `open` (lines 29-67): the outcome of the block and the
handle as the block leaves it. -/
def level_pod_map.openBody {Key : Type} (P : PodKey Key) (m : level_pod_map) (dir : Directory)
    (create : Bool) (cache_size : Nat) : Outcome Unit × level_pod_map :=
  if m.is_open then (Outcome.aborted, m)
  else
    let opts0 : Options :=
      { comparator := key_compare.order P, create_if_missing := create, max_open_files := 64,
        compression := CompressionType.kNoCompression, write_buffer_size := 4194304,
        block_cache := none, paranoid_checks := false }
    let opts1 : Options :=
      if cache_size > 0 then
        { opts0 with write_buffer_size := cache_size / 4,
                     block_cache := some { capacity := cache_size / 2 } }
      else opts0
    let m1 : level_pod_map :=
      if cache_size > 0 then { m with _cache := some { capacity := cache_size / 2 } } else m
    let opts2 : Options :=
      if dir.kMajorVersion > 1 ∨ (dir.kMajorVersion = 1 ∧ dir.kMinorVersion ≥ 16) then
        { opts1 with paranoid_checks := true }
      else opts1
    let m2 : level_pod_map :=
      { m1 with _read_options := { m1._read_options with verify_checksums := true },
                _iter_options := { verify_checksums := true, fill_cache := false },
                _sync_options := { sync := true } }
    if !dir.create_directories then (Outcome.thrown Exn.filesystem_error, m2)
    else
      let r := dir.Open opts2
      if !r.1.isOk then (Outcome.thrown Exn.level_pod_map_failure, m2)
      else
        let m3 : level_pod_map := { m2 with _db := some r.2 }
        if !dir.try_upgrade_db then (Outcome.thrown Exn.upgrade_failure, m3)
        else (Outcome.returned (), m3)

/-- The member `open(dir, create, cache_size)`: its `try` block closed by
`catch (...) {}`. -/
def level_pod_map.open {Key : Type} (P : PodKey Key) (m : level_pod_map) (dir : Directory)
    (create : Bool) (cache_size : Nat) : Outcome Unit × level_pod_map :=
  let r := level_pod_map.openBody P m dir create cache_size
  (catchDiscardVoid r.1, r.2)

/-- The member `close()`: `_db.reset(); _cache.reset();`. -/
def level_pod_map.close (m : level_pod_map) : Outcome Unit × level_pod_map :=
  (Outcome.returned (), { m with _db := none, _cache := none })

/-- The nested class `iterator`: a shared handle on an engine cursor, null when
default-constructed. -/
structure iterator where
  _it : Option Iterator
  deriving DecidableEq, Repr

/-- The member `iterator::valid()`: `_it && _it->Valid()`. -/
def iterator.valid (c : iterator) : Bool :=
  match c._it with
  | some it => it.Valid
  | none => false

/-- The member `iterator::key()`. -/
def iterator.key {Key : Type} (P : PodKey Key) (c : iterator) : Outcome Key :=
  match c._it with
  | none => Outcome.undefined
  | some it =>
    match it.current with
    | none => Outcome.undefined
    | some e => if P.size = e.1.length then Outcome.returned (P.ofSlice e.1) else Outcome.aborted

/-- The member `iterator::value()`. -/
def iterator.value {Value : Type} (C : Codec Value) (c : iterator) : Outcome Value :=
  match c._it with
  | none => Outcome.undefined
  | some it =>
    match it.current with
    | none => Outcome.undefined
    | some e =>
      match C.unpack e.2 with
      | some tmp_val => Outcome.returned tmp_val
      | none => Outcome.thrown Exn.unpack_failure

/-- The member `iterator::operator++()`: `_it->Next()`. -/
def iterator.operator_inc (c : iterator) : iterator :=
  match c._it with
  | some it => { _it := some it.Next }
  | none => c

/-- The member `iterator::operator--()`: `_it->Prev()`. -/
def iterator.operator_dec (c : iterator) : iterator :=
  match c._it with
  | some it => { _it := some it.Prev }
  | none => c

/-- The member `find(key)`. -/
def level_pod_map.find {Key : Type} (P : PodKey Key) (m : level_pod_map) (st : Status)
    (key : Key) : Outcome iterator :=
  match m._db with
  | none => Outcome.aborted
  | some db =>
    catchDiscard
      (let key_slice := P.toSlice key
       let itr : iterator :=
         { _it := some ((db.NewIterator m._iter_options st).Seek (key_compare.order P) key_slice) }
       if itr.valid then
         match itr.key P with
         | Outcome.returned k =>
           if P.eq k key then Outcome.returned itr else Outcome.returned { _it := none }
         | Outcome.thrown e => Outcome.thrown e
         | Outcome.aborted => Outcome.aborted
         | Outcome.undefined => Outcome.undefined
       else Outcome.returned { _it := none })

/-- The member `fetch_optional(k)`. -/
def level_pod_map.fetch_optional {Key Value : Type} (P : PodKey Key) (C : Codec Value)
    (m : level_pod_map) (st : Status) (k : Key) : Outcome (Option Value) :=
  match m._db with
  | none => Outcome.aborted
  | some _ =>
    catchDiscard
      (match m.find P st k with
       | Outcome.returned itr =>
         if itr.valid then
           match itr.value C with
           | Outcome.returned v => Outcome.returned (some v)
           | Outcome.thrown e => Outcome.thrown e
           | Outcome.aborted => Outcome.aborted
           | Outcome.undefined => Outcome.undefined
         else Outcome.returned none
       | Outcome.thrown e => Outcome.thrown e
       | Outcome.aborted => Outcome.aborted
       | Outcome.undefined => Outcome.undefined)

/-- The member `fetch(key)`. -/
def level_pod_map.fetch {Key Value : Type} (P : PodKey Key) (C : Codec Value)
    (m : level_pod_map) (st : Status) (key : Key) : Outcome Value :=
  match m._db with
  | none => Outcome.aborted
  | some db =>
    catchDiscard
      (let key_slice := P.toSlice key
       let r := db.Get (key_compare.order P) m._read_options st key_slice
       if r.1.IsNotFound then Outcome.thrown Exn.key_not_found_exception
       else if !r.1.isOk then Outcome.thrown Exn.level_pod_map_failure
       else
         match C.unpack r.2 with
         | some tmp => Outcome.returned tmp
         | none => Outcome.thrown Exn.unpack_failure)

/-- The member `begin()`. -/
def level_pod_map.begin (m : level_pod_map) (st : Status) : Outcome iterator :=
  match m._db with
  | none => Outcome.aborted
  | some db =>
    catchDiscard
      (let it := (db.NewIterator m._iter_options st).SeekToFirst
       let itr : iterator := { _it := some it }
       if it.status.IsNotFound then Outcome.thrown Exn.key_not_found_exception
       else if !it.status.isOk then Outcome.thrown Exn.level_pod_map_failure
       else if itr.valid then Outcome.returned itr
       else Outcome.returned { _it := none })

/-- The member `lower_bound(key)`. -/
def level_pod_map.lower_bound {Key : Type} (P : PodKey Key) (m : level_pod_map) (st : Status)
    (key : Key) : Outcome iterator :=
  match m._db with
  | none => Outcome.aborted
  | some db =>
    FC_RETHROW_EXCEPTIONS
      (let key_slice := P.toSlice key
       let itr : iterator :=
         { _it := some ((db.NewIterator m._iter_options st).Seek (key_compare.order P) key_slice) }
       if itr.valid then Outcome.returned itr
       else Outcome.returned { _it := none })

/-- The member `last(Key &k)`: the returned flag and `k` after the call. -/
def level_pod_map.last {Key : Type} (P : PodKey Key) (m : level_pod_map) (st : Status)
    (k : Key) : Outcome (Bool × Key) :=
  match m._db with
  | none => Outcome.aborted
  | some db =>
    FC_RETHROW_EXCEPTIONS
      (let it := (db.NewIterator m._iter_options st).SeekToLast
       if !it.Valid then Outcome.returned (false, k)
       else
         match it.current with
         | none => Outcome.undefined
         | some e =>
           if P.size = e.1.length then Outcome.returned (true, P.ofSlice e.1)
           else Outcome.aborted)

/-- The member `last(Key &k, Value &v)`: the returned flag, and `k` and `v` after the
call. -/
def level_pod_map.last2 {Key Value : Type} (P : PodKey Key) (C : Codec Value)
    (m : level_pod_map) (st : Status) (k : Key) (v : Value) : Outcome (Bool × Key × Value) :=
  match m._db with
  | none => Outcome.aborted
  | some db =>
    FC_RETHROW_EXCEPTIONS
      (let it := (db.NewIterator m._iter_options st).SeekToLast
       if !it.Valid then Outcome.returned (false, k, v)
       else
         match it.current with
         | none => Outcome.undefined
         | some e =>
           match C.unpack e.2 with
           | none => Outcome.thrown Exn.unpack_failure
           | some v1 =>
             if P.size = e.1.length then Outcome.returned (true, P.ofSlice e.1, v1)
             else Outcome.aborted)

/-- The member `store(k, v, sync)`: the outcome and the handle after the call. -/
def level_pod_map.store {Key Value : Type} (P : PodKey Key) (C : Codec Value)
    (m : level_pod_map) (st : Status) (k : Key) (v : Value) (sync : Bool) :
    Outcome Unit × level_pod_map :=
  match m._db with
  | none => (Outcome.aborted, m)
  | some db =>
    let ks := P.toSlice k
    let vs := C.pack v
    let r := db.Put (key_compare.order P) (if sync then m._sync_options else m._write_options)
      st ks vs
    (FC_RETHROW_EXCEPTIONS
      (if !r.1.isOk then Outcome.thrown Exn.level_pod_map_failure else Outcome.returned ()),
     { m with _db := some r.2 })

/-- The member `remove(k, sync)`: the outcome and the handle after the call. -/
def level_pod_map.remove {Key : Type} (P : PodKey Key) (m : level_pod_map) (st : Status)
    (k : Key) (sync : Bool) : Outcome Unit × level_pod_map :=
  match m._db with
  | none => (Outcome.aborted, m)
  | some db =>
    let ks := P.toSlice k
    let r := db.Delete (key_compare.order P)
      (if sync then m._sync_options else m._write_options) st ks
    (FC_RETHROW_EXCEPTIONS
      (if r.1.IsNotFound then Outcome.thrown Exn.key_not_found_exception
       else if !r.1.isOk then Outcome.thrown Exn.level_pod_map_failure
       else Outcome.returned ()),
     { m with _db := some r.2 })

/-- The loop `for (; itr.valid(); ++itr) keys.push_back(itr.key())`, run for at
most `fuel` entries: the outcomes of `key()` in the order read, or `none` when
the cursor is still valid after `fuel` steps. -/
def iterator.keysFrom {Key : Type} (P : PodKey Key) : Nat → iterator → Option (List (Outcome Key))
  | 0, itr => if itr.valid then none else some []
  | fuel + 1, itr =>
    if itr.valid then
      match iterator.keysFrom P fuel itr.operator_inc with
      | some ks => some (itr.key P :: ks)
      | none => none
    else some []

/-- A call of `store`: the status the engine reports for it and its arguments. -/
structure StoreCall (Key Value : Type) where
  st : Status
  k : Key
  v : Value
  sync : Bool

/-- A sequence of `store` calls on a handle, in order. -/
def level_pod_map.storeAll {Key Value : Type} (P : PodKey Key) (C : Codec Value)
    (m : level_pod_map) : List (StoreCall Key Value) → level_pod_map
  | [] => m
  | c :: cs => level_pod_map.storeAll P C (m.store P C c.st c.k c.v c.sync).2 cs

/-- The keys held by a database, read as `Key`, in the order of its entries. -/
def storedKeys {Key : Type} (P : PodKey Key) (db : DB) : List Key :=
  db.entries.map (fun e => P.ofSlice e.1)

/-- The native `<` of `Key` is a strict total order and `==` agrees with it: `==`
holds exactly between a key and itself. -/
structure PodKey.StrictTotalOrder {Key : Type} (P : PodKey Key) : Prop where
  lt_irrefl : ∀ a, P.lt a a = false
  lt_trans : ∀ a b c, P.lt a b = true → P.lt b c = true → P.lt a c = true
  lt_total : ∀ a b, P.lt a b = true ∨ a = b ∨ P.lt b a = true
  eq_iff : ∀ a b, P.eq a b = true ↔ a = b

/-- The object representation of `Key` is faithful: it has `sizeof(Key)` bytes, and
reading it back gives the key. -/
structure PodKey.Faithful {Key : Type} (P : PodKey Key) : Prop where
  length_toSlice : ∀ k, (P.toSlice k).length = P.size
  ofSlice_toSlice : ∀ k, P.ofSlice (P.toSlice k) = k

/-- The entries are strictly ascending under the comparator. -/
def Ascending {Key : Type} (P : PodKey Key) (es : List Entry) : Prop :=
  es.Pairwise (fun a b => key_compare.order P a.1 b.1 < 0)

instance {Key : Type} (P : PodKey Key) (es : List Entry) : Decidable (Ascending P es) := by
  unfold Ascending; infer_instance

/-- Every key held has `sizeof(Key)` bytes. -/
def KeysSized {Key : Type} (P : PodKey Key) (es : List Entry) : Prop :=
  ∀ e ∈ es, e.1.length = P.size

instance {Key : Type} (P : PodKey Key) (es : List Entry) : Decidable (KeysSized P es) := by
  unfold KeysSized; infer_instance

/-- Every value held decodes. -/
def ValuesDecode {Value : Type} (C : Codec Value) (es : List Entry) : Prop :=
  ∀ e ∈ es, (C.unpack e.2).isSome = true

instance {Value : Type} (C : Codec Value) (es : List Entry) : Decidable (ValuesDecode C es) := by
  unfold ValuesDecode; infer_instance

/-- The state of a database that `store` and `remove` maintain: entries
ascending under the comparator, with keys of `sizeof(Key)` bytes. -/
def WellFormed {Key : Type} (P : PodKey Key) (db : DB) : Prop :=
  Ascending P db.entries ∧ KeysSized P db.entries

instance {Key : Type} (P : PodKey Key) (db : DB) : Decidable (WellFormed P db) := by
  unfold WellFormed; infer_instance

/-- A key type for concrete runs: a 32-bit unsigned integer in little-endian
representation. -/
def u32 : PodKey (Fin 4294967296) where
  size := 4
  toSlice k := [k.val % 256, k.val / 256 % 256, k.val / 65536 % 256, k.val / 16777216 % 256]
  ofSlice s :=
    Fin.ofNat (s.getD 0 0 % 256 + 256 * (s.getD 1 0 % 256) + 65536 * (s.getD 2 0 % 256)
      + 16777216 * (s.getD 3 0 % 256))
  lt a b := decide (a.val < b.val)
  eq a b := decide (a.val = b.val)

/-- A value type for concrete runs: a page count below 256, packed as one byte. -/
def pages : Codec (Fin 256) where
  pack v := [v.val]
  unpack s :=
    match s with
    | [b] => if b < 256 then some (Fin.ofNat b) else none
    | _ => none

/-- A directory in which an empty database opens without fault. -/
def freshDir : Directory where
  create_directories := true
  Open _ := (Status.ok, { entries := [] })
  try_upgrade_db := true
  kMajorVersion := 1
  kMinorVersion := 20

/-- A directory on which the engine reports an I/O error at `DB::Open`. -/
def faultyDir : Directory where
  create_directories := true
  Open _ := (Status.ioError, { entries := [] })
  try_upgrade_db := true
  kMajorVersion := 1
  kMinorVersion := 20

/-- A directory in which the engine opens and `try_upgrade_db` then throws. -/
def staleDir : Directory where
  create_directories := true
  Open _ := (Status.ok, { entries := [] })
  try_upgrade_db := false
  kMajorVersion := 1
  kMinorVersion := 20

/-- An open handle on a database with the given entries. -/
def openOn (es : List Entry) : level_pod_map :=
  { level_pod_map.init with _db := some { entries := es } }

/-! ## The comparator -/

theorem compareKeys_neg_iff {Key : Type} (P : PodKey Key) (a b : Key) :
    key_compare.compareKeys P a b < 0 ↔ P.lt a b = true := by
  unfold key_compare.compareKeys
  cases h1 : P.lt a b <;> cases h2 : P.eq a b <;> simp

theorem compareKeys_nonneg_iff {Key : Type} (P : PodKey Key) (a b : Key) :
    0 ≤ key_compare.compareKeys P a b ↔ P.lt a b = false := by
  unfold key_compare.compareKeys
  cases h1 : P.lt a b <;> cases h2 : P.eq a b <;> simp

theorem compareKeys_eq_zero_iff {Key : Type} (P : PodKey Key) (hP : P.StrictTotalOrder)
    (a b : Key) : key_compare.compareKeys P a b = 0 ↔ a = b := by
  unfold key_compare.compareKeys
  constructor
  · intro h
    cases h1 : P.lt a b <;> cases h2 : P.eq a b <;> simp [h1, h2] at h
    exact (hP.eq_iff a b).1 h2
  · intro h
    subst h
    simp [hP.lt_irrefl a, (hP.eq_iff a a).2 rfl]

theorem lt_asymm_of {Key : Type} (P : PodKey Key) (hP : P.StrictTotalOrder) (a b : Key)
    (h : P.lt a b = true) : P.lt b a = false := by
  cases h1 : P.lt b a
  · rfl
  · have := hP.lt_trans a b a h h1
    rw [hP.lt_irrefl a] at this
    exact absurd this (by simp)

theorem compareKeys_antisymm {Key : Type} (P : PodKey Key) (hP : P.StrictTotalOrder) (a b : Key) :
    key_compare.compareKeys P b a = - key_compare.compareKeys P a b := by
  rcases hP.lt_total a b with h | h | h
  · have h1 := lt_asymm_of P hP a b h
    have h2 : P.eq b a = false := by
      cases h3 : P.eq b a
      · rfl
      · have := (hP.eq_iff b a).1 h3
        subst this
        rw [hP.lt_irrefl b] at h
        exact absurd h (by simp)
    simp [key_compare.compareKeys, h, h1, h2]
  · subst h
    simp [key_compare.compareKeys, hP.lt_irrefl a, (hP.eq_iff a a).2 rfl]
  · have h1 := lt_asymm_of P hP b a h
    have h2 : P.eq a b = false := by
      cases h3 : P.eq a b
      · rfl
      · have := (hP.eq_iff a b).1 h3
        subst this
        rw [hP.lt_irrefl a] at h
        exact absurd h (by simp)
    simp [key_compare.compareKeys, h, h1, h2]

theorem compareKeys_le_trans {Key : Type} (P : PodKey Key) (hP : P.StrictTotalOrder) (a b c : Key)
    (hab : key_compare.compareKeys P a b ≤ 0) (hbc : key_compare.compareKeys P b c ≤ 0) :
    key_compare.compareKeys P a c ≤ 0 := by
  have key : ∀ x y : Key, key_compare.compareKeys P x y ≤ 0 ↔ P.lt y x = false := by
    intro x y
    have h1 := compareKeys_antisymm P hP y x
    have h2 := compareKeys_nonneg_iff P y x
    constructor
    · intro h
      exact h2.1 (by omega)
    · intro h
      have := h2.2 h
      omega
  rw [key] at hab hbc ⊢
  cases h : P.lt c a
  · rfl
  · rcases hP.lt_total a b with h1 | h1 | h1
    · have := hP.lt_trans c a b h h1
      rw [hbc] at this
      exact absurd this (by simp)
    · subst h1
      rw [hbc] at h
      exact absurd h (by simp)
    · rw [hab] at h1
      exact absurd h1 (by simp)

theorem u32_strictTotalOrder : u32.StrictTotalOrder where
  lt_irrefl a := by simp [u32]
  lt_trans a b c := by
    simp only [u32, decide_eq_true_eq]
    omega
  lt_total a b := by
    simp only [u32, decide_eq_true_eq]
    rcases Nat.lt_trichotomy a.val b.val with h | h | h
    · exact Or.inl h
    · exact Or.inr (Or.inl (Fin.ext h))
    · exact Or.inr (Or.inr h)
  eq_iff a b := by
    simp only [u32, decide_eq_true_eq]
    exact ⟨fun h => Fin.ext h, fun h => by rw [h]⟩

theorem u32_faithful : u32.Faithful where
  length_toSlice k := by simp [u32]
  ofSlice_toSlice k := by
    apply Fin.ext
    have hk := k.isLt
    simp only [u32, List.getD_cons_zero, List.getD_cons_succ, Fin.ofNat, Nat.mod_mod]
    omega

/-- C10: on slices of `sizeof(Key)` bytes, with the native `<` of `Key` a strict total
order that `==` agrees with, `Compare(a, b)` is -1, 0 or 1 as the key of `a` is
below, equal to, or neither below nor equal to the key of `b`; `Compare(b, a)`
is the negation of `Compare(a, b)`, `Compare(a, a)` is 0, and `Compare(a, b) <= 0`
with `Compare(b, c) <= 0` gives `Compare(a, c) <= 0`. -/
theorem key_compare_total_order {Key : Type} (P : PodKey Key) (hP : P.StrictTotalOrder)
    (a b c : Slice) (ha : a.length = P.size) (hb : b.length = P.size) (hc : c.length = P.size) :
    ∃ x y z : Int,
      key_compare.Compare P a b = some x ∧ key_compare.Compare P b c = some y ∧
      key_compare.Compare P a c = some z ∧
      x = (if P.lt (P.ofSlice a) (P.ofSlice b) = true then -1
           else if P.eq (P.ofSlice a) (P.ofSlice b) = true then 0 else 1) ∧
      key_compare.Compare P b a = some (-x) ∧
      key_compare.Compare P a a = some 0 ∧
      (x ≤ 0 → y ≤ 0 → z ≤ 0) := by
  refine ⟨key_compare.compareKeys P (P.ofSlice a) (P.ofSlice b),
    key_compare.compareKeys P (P.ofSlice b) (P.ofSlice c),
    key_compare.compareKeys P (P.ofSlice a) (P.ofSlice c), ?_, ?_, ?_, ?_, ?_, ?_, ?_⟩
  · simp [key_compare.Compare, ha, hb]
  · simp [key_compare.Compare, hb, hc]
  · simp [key_compare.Compare, ha, hc]
  · rfl
  · simp [key_compare.Compare, ha, hb, compareKeys_antisymm P hP (P.ofSlice a) (P.ofSlice b)]
  · simp [key_compare.Compare, ha, (compareKeys_eq_zero_iff P hP _ _).2 rfl]
  · exact compareKeys_le_trans P hP _ _ _

theorem key_compare_total_order_witness :
    ∃ x y z : Int,
      key_compare.Compare u32 [1, 0, 0, 0] [2, 0, 0, 0] = some x ∧
      key_compare.Compare u32 [2, 0, 0, 0] [0, 1, 0, 0] = some y ∧
      key_compare.Compare u32 [1, 0, 0, 0] [0, 1, 0, 0] = some z ∧
      x = (if u32.lt (u32.ofSlice [1, 0, 0, 0]) (u32.ofSlice [2, 0, 0, 0]) = true then -1
           else if u32.eq (u32.ofSlice [1, 0, 0, 0]) (u32.ofSlice [2, 0, 0, 0]) = true then 0
           else 1) ∧
      key_compare.Compare u32 [2, 0, 0, 0] [1, 0, 0, 0] = some (-x) ∧
      key_compare.Compare u32 [1, 0, 0, 0] [1, 0, 0, 0] = some 0 ∧
      (x ≤ 0 → y ≤ 0 → z ≤ 0) :=
  key_compare_total_order u32 u32_strictTotalOrder [1, 0, 0, 0] [2, 0, 0, 0] [0, 1, 0, 0]
    (by decide) (by decide) (by decide)

theorem order_neg_iff {Key : Type} (P : PodKey Key) (a b : Slice) :
    key_compare.order P a b < 0 ↔ P.lt (P.ofSlice a) (P.ofSlice b) = true :=
  compareKeys_neg_iff P _ _

theorem order_nonneg_iff {Key : Type} (P : PodKey Key) (a b : Slice) :
    0 ≤ key_compare.order P a b ↔ P.lt (P.ofSlice a) (P.ofSlice b) = false :=
  compareKeys_nonneg_iff P _ _

theorem order_eq_zero_iff {Key : Type} (P : PodKey Key) (hP : P.StrictTotalOrder) (a b : Slice) :
    key_compare.order P a b = 0 ↔ P.ofSlice a = P.ofSlice b :=
  compareKeys_eq_zero_iff P hP _ _

/-! ## Lifecycle -/

theorem catchDiscardVoid_ne_thrown (o : Outcome Unit) (e : Exn) :
    catchDiscardVoid o ≠ Outcome.thrown e := by
  cases o <;> simp [catchDiscardVoid]

theorem is_open_false_iff (m : level_pod_map) : m.is_open = false ↔ m._db = none := by
  cases h : m._db <;> simp [level_pod_map.is_open, h]

/-- Whatever the directory, `open` lets no exception reach its caller. -/
theorem open_never_throws {Key : Type} (P : PodKey Key) (m : level_pod_map) (dir : Directory)
    (create : Bool) (cache_size : Nat) (e : Exn) :
    (m.open P dir create cache_size).1 ≠ Outcome.thrown e := by
  exact catchDiscardVoid_ne_thrown _ e

/-- C8: `close()` returns normally on every handle and leaves `is_open()` false, and a
second `close()` returns normally and leaves exactly the handle the first one
left. -/
theorem close_idempotent (m : level_pod_map) :
    m.close.1 = Outcome.returned () ∧ m.close.2.is_open = false ∧
    m.close.2.close = m.close := by
  refine ⟨rfl, rfl, rfl⟩

/-- C6, the code at a failing input: on a closed handle, with the engine reporting
an I/O error at `DB::Open`, `open` returns normally (the failure thrown inside
is discarded by `catch (...) {}`) and the handle stays closed; the same holds
with a cache requested. -/
theorem open_engine_fault_not_reported :
    (level_pod_map.init.open u32 faultyDir true 0).1 = Outcome.returned () ∧
    (level_pod_map.init.open u32 faultyDir true 0).2.is_open = false ∧
    (level_pod_map.openBody u32 level_pod_map.init faultyDir true 0).1
      = Outcome.thrown Exn.level_pod_map_failure ∧
    (level_pod_map.init.open u32 faultyDir true 1024).1 = Outcome.returned () := by
  refine ⟨rfl, rfl, rfl, rfl⟩

/-- C7, the code at a failing input: on a closed handle, with the engine opened and
`try_upgrade_db` throwing, `open` returns normally (the failure is discarded by
`catch (...) {}`) and the handle is left open, `_db` having been set before the
hook ran. -/
theorem open_upgrade_failure_not_reported :
    (level_pod_map.init.open u32 staleDir true 0).1 = Outcome.returned () ∧
    (level_pod_map.init.open u32 staleDir true 0).2.is_open = true ∧
    (level_pod_map.openBody u32 level_pod_map.init staleDir true 0).1
      = Outcome.thrown Exn.upgrade_failure := by
  refine ⟨rfl, rfl, rfl⟩

/-- When the engine opens and the hook completes, `open` on a closed handle returns
normally and the handle is open. -/
theorem open_success {Key : Type} (P : PodKey Key) (m : level_pod_map) (dir : Directory)
    (create : Bool) (cache_size : Nat) (hclosed : m.is_open = false)
    (hdir : dir.create_directories = true) (hhook : dir.try_upgrade_db = true)
    (hst : ∀ o, (dir.Open o).1 = Status.ok) :
    (m.open P dir create cache_size).1 = Outcome.returned () ∧
    (m.open P dir create cache_size).2.is_open = true := by
  have hdb := (is_open_false_iff m).1 hclosed
  simp [level_pod_map.open, level_pod_map.openBody, hdb, hdir, hhook, hst, Status.isOk,
    catchDiscardVoid, level_pod_map.is_open]

/-- On a closed handle, when directory creation fails or the engine reports a
status that is not ok, the handle stays closed. -/
theorem open_failure_stays_closed {Key : Type} (P : PodKey Key) (m : level_pod_map)
    (dir : Directory) (create : Bool) (cache_size : Nat) (hclosed : m.is_open = false)
    (hfail : dir.create_directories = false ∨ ∀ o, (dir.Open o).1.isOk = false) :
    (m.open P dir create cache_size).1 = Outcome.returned () ∧
    (m.open P dir create cache_size).2.is_open = false := by
  have hdb := (is_open_false_iff m).1 hclosed
  rcases hfail with h | h
  · by_cases hc : 0 < cache_size <;>
      simp [level_pod_map.open, level_pod_map.openBody, hdb, h, hc, catchDiscardVoid,
        level_pod_map.is_open]
  · cases hd : dir.create_directories <;> by_cases hc : 0 < cache_size <;>
      simp [level_pod_map.open, level_pod_map.openBody, hdb, hd, h, hc, catchDiscardVoid,
        level_pod_map.is_open]

/-! ## Point lookups -/

theorem lookup_insertEntry {Key : Type} (P : PodKey Key) (hP : P.StrictTotalOrder)
    (key value : Slice) (es : List Entry) :
    lookup (key_compare.order P) key (insertEntry (key_compare.order P) key value es)
      = some value := by
  have hrefl : key_compare.order P key key = 0 := (order_eq_zero_iff P hP key key).2 rfl
  induction es with
  | nil => simp [insertEntry, lookup, hrefl]
  | cons e es ih =>
    unfold insertEntry
    by_cases h1 : key_compare.order P key e.1 < 0
    · simp [h1, lookup, hrefl]
    · by_cases h2 : key_compare.order P key e.1 = 0
      · simp [h2, lookup, hrefl]
      · have h3 : ¬ key_compare.order P e.1 key = 0 := by
          intro h
          exact h2 ((order_eq_zero_iff P hP _ _).2 ((order_eq_zero_iff P hP _ _).1 h).symm)
        simp [h1, h2, lookup, h3, ih]

/-- C1: on an open map, when `store(k, v)` returns normally and the codec decodes the
encoding of `v` to `v`, a `fetch(k)` that follows, with the engine reporting no
fault, returns `v`. -/
theorem store_fetch_round_trip {Key Value : Type} (P : PodKey Key) (C : Codec Value)
    (hP : P.StrictTotalOrder) (m : level_pod_map) (st : Status) (k : Key) (v : Value)
    (sync : Bool) (hopen : m.is_open = true) (hcodec : C.unpack (C.pack v) = some v)
    (hstore : (m.store P C st k v sync).1 = Outcome.returned ()) :
    (m.store P C st k v sync).2.fetch P C Status.ok k = Outcome.returned v := by
  cases hdb : m._db with
  | none => simp [level_pod_map.is_open, hdb] at hopen
  | some db =>
    have hst : st = Status.ok := by
      cases st <;> simp [level_pod_map.store, hdb, DB.Put, Status.isOk,
        FC_RETHROW_EXCEPTIONS] at hstore
      rfl
    subst hst
    simp [level_pod_map.store, level_pod_map.fetch, hdb, DB.Put, DB.Get, Status.isOk,
      Status.IsNotFound, lookup_insertEntry P hP, hcodec, catchDiscard]

theorem store_fetch_round_trip_witness :
    ((openOn [([2, 0, 0, 0], [40])]).store u32 pages Status.ok 1 3 false).2.fetch u32 pages
      Status.ok 1 = Outcome.returned 3 :=
  store_fetch_round_trip u32 pages u32_strictTotalOrder (openOn [([2, 0, 0, 0], [40])])
    Status.ok 1 3 false (by decide) (by decide) (by decide)

/-- On an open map that holds no entry under `k`, with the engine reporting no
fault, `fetch(k)` lets no exception reach the caller and returns nothing: the
`key_not_found_exception` thrown inside is discarded. -/
theorem fetch_absent {Key Value : Type} (P : PodKey Key) (C : Codec Value) (db : DB)
    (m : level_pod_map) (k : Key) (hdb : m._db = some db)
    (habs : lookup (key_compare.order P) (P.toSlice k) db.entries = none) :
    m.fetch P C Status.ok k = Outcome.undefined := by
  simp [level_pod_map.fetch, hdb, DB.Get, Status.isOk, habs, Status.IsNotFound, catchDiscard]

/-- C2, the code at a failing input: on an open map holding key 1 only, `fetch(2)`
gives the caller no `key_not_found_exception` (the exception thrown inside is
discarded and control runs off the end of the function), while
`fetch_optional(2)` returns the empty result. -/
theorem fetch_absent_key_not_reported :
    (openOn [([1, 0, 0, 0], [3])]).fetch u32 pages Status.ok 2 = Outcome.undefined ∧
    (openOn [([1, 0, 0, 0], [3])]).fetch_optional u32 pages Status.ok 2
      = Outcome.returned none := by
  refine ⟨by decide, by decide⟩

/-! ## The state that writes maintain -/

theorem mem_insertEntry {Key : Type} (P : PodKey Key) (key value : Slice) (es : List Entry)
    (b : Entry) (hb : b ∈ insertEntry (key_compare.order P) key value es) :
    b = (key, value) ∨ b ∈ es := by
  induction es with
  | nil => simpa [insertEntry] using hb
  | cons e es ih =>
    unfold insertEntry at hb
    by_cases h1 : key_compare.order P key e.1 < 0
    · rw [if_pos h1] at hb
      rcases List.mem_cons.1 hb with h | h
      · exact Or.inl h
      · exact Or.inr h
    · rw [if_neg h1] at hb
      by_cases h2 : key_compare.order P key e.1 = 0
      · rw [if_pos h2] at hb
        rcases List.mem_cons.1 hb with h | h
        · exact Or.inl h
        · exact Or.inr (List.mem_cons_of_mem _ h)
      · rw [if_neg h2] at hb
        rcases List.mem_cons.1 hb with h | h
        · exact Or.inr (by rw [h]; exact List.mem_cons_self _ _)
        · rcases ih h with h3 | h3
          · exact Or.inl h3
          · exact Or.inr (List.mem_cons_of_mem _ h3)

theorem ascending_insertEntry {Key : Type} (P : PodKey Key) (hP : P.StrictTotalOrder)
    (key value : Slice) (es : List Entry) (hasc : Ascending P es) :
    Ascending P (insertEntry (key_compare.order P) key value es) := by
  induction es with
  | nil => simp [insertEntry, Ascending]
  | cons e es ih =>
    have hasc2 := hasc
    unfold Ascending at hasc2
    rw [List.pairwise_cons] at hasc2
    obtain ⟨hhead, htail⟩ := hasc2
    unfold insertEntry
    by_cases h1 : key_compare.order P key e.1 < 0
    · rw [if_pos h1]
      unfold Ascending
      rw [List.pairwise_cons]
      refine ⟨?_, hasc⟩
      intro b hb
      rcases List.mem_cons.1 hb with h | h
      · rw [h]; exact h1
      · have h2 := hhead b h
        rw [order_neg_iff] at h1 h2 ⊢
        exact hP.lt_trans _ _ _ h1 h2
    · rw [if_neg h1]
      by_cases h2 : key_compare.order P key e.1 = 0
      · rw [if_pos h2]
        unfold Ascending
        rw [List.pairwise_cons]
        refine ⟨?_, htail⟩
        intro b hb
        have h3 := hhead b hb
        have h4 := (order_eq_zero_iff P hP _ _).1 h2
        rw [order_neg_iff] at h3 ⊢
        show P.lt (P.ofSlice key) (P.ofSlice b.1) = true
        rw [h4]; exact h3
      · rw [if_neg h2]
        unfold Ascending
        rw [List.pairwise_cons]
        refine ⟨?_, ih htail⟩
        intro b hb
        rcases mem_insertEntry P key value es b hb with h | h
        · rw [h]
          rw [order_neg_iff] at h1 ⊢
          rw [order_eq_zero_iff P hP] at h2
          rcases hP.lt_total (P.ofSlice key) (P.ofSlice e.1) with h3 | h3 | h3
          · exact absurd h3 h1
          · exact absurd h3 h2
          · exact h3
        · exact hhead b h

theorem ascending_eraseEntry {Key : Type} (P : PodKey Key) (key : Slice) (es : List Entry)
    (hasc : Ascending P es) : Ascending P (eraseEntry (key_compare.order P) key es) := by
  unfold Ascending eraseEntry
  exact List.Pairwise.sublist (List.filter_sublist es) hasc

theorem keysSized_insertEntry {Key : Type} (P : PodKey Key) (key value : Slice)
    (es : List Entry) (hkey : key.length = P.size) (hs : KeysSized P es) :
    KeysSized P (insertEntry (key_compare.order P) key value es) := by
  intro b hb
  rcases mem_insertEntry P key value es b hb with h | h
  · rw [h]; exact hkey
  · exact hs b h

theorem keysSized_eraseEntry {Key : Type} (P : PodKey Key) (key : Slice) (es : List Entry)
    (hs : KeysSized P es) : KeysSized P (eraseEntry (key_compare.order P) key es) := by
  intro b hb
  exact hs b (List.mem_filter.1 hb).1

theorem valuesDecode_insertEntry {Key Value : Type} (P : PodKey Key) (C : Codec Value)
    (key value : Slice) (es : List Entry) (hv : (C.unpack value).isSome = true)
    (hs : ValuesDecode C es) :
    ValuesDecode C (insertEntry (key_compare.order P) key value es) := by
  intro b hb
  rcases mem_insertEntry P key value es b hb with h | h
  · rw [h]; exact hv
  · exact hs b h

/-- A handle is well formed when it is closed or its database is. -/
theorem store_preserves_wellFormed {Key Value : Type} (P : PodKey Key) (C : Codec Value)
    (hP : P.StrictTotalOrder) (hF : P.Faithful) (m : level_pod_map) (st : Status) (k : Key)
    (v : Value) (sync : Bool) (db : DB) (hdb : m._db = some db) (hwf : WellFormed P db) :
    ∃ db1, (m.store P C st k v sync).2._db = some db1 ∧ WellFormed P db1 := by
  cases hst : st.isOk
  · exact ⟨db, by simp [level_pod_map.store, hdb, DB.Put, hst], hwf⟩
  · refine ⟨{ entries := insertEntry (key_compare.order P) (P.toSlice k) (C.pack v) db.entries },
      by simp [level_pod_map.store, hdb, DB.Put, hst], ?_, ?_⟩
    · exact ascending_insertEntry P hP _ _ _ hwf.1
    · exact keysSized_insertEntry P _ _ _ (hF.length_toSlice k) hwf.2

theorem remove_preserves_wellFormed {Key : Type} (P : PodKey Key) (m : level_pod_map)
    (st : Status) (k : Key) (sync : Bool) (db : DB) (hdb : m._db = some db)
    (hwf : WellFormed P db) :
    ∃ db1, (m.remove P st k sync).2._db = some db1 ∧ WellFormed P db1 := by
  cases hst : st.isOk
  · exact ⟨db, by simp [level_pod_map.remove, hdb, DB.Delete, hst], hwf⟩
  · refine ⟨{ entries := eraseEntry (key_compare.order P) (P.toSlice k) db.entries },
      by simp [level_pod_map.remove, hdb, DB.Delete, hst], ?_, ?_⟩
    · exact ascending_eraseEntry P _ _ hwf.1
    · exact keysSized_eraseEntry P _ _ hwf.2

theorem store_preserves_valuesDecode {Key Value : Type} (P : PodKey Key) (C : Codec Value)
    (m : level_pod_map) (st : Status) (k : Key) (v : Value) (sync : Bool) (db : DB)
    (hdb : m._db = some db) (hcodec : C.unpack (C.pack v) = some v)
    (hdec : ValuesDecode C db.entries) :
    ∃ db1, (m.store P C st k v sync).2._db = some db1 ∧ ValuesDecode C db1.entries := by
  cases hst : st.isOk
  · exact ⟨db, by simp [level_pod_map.store, hdb, DB.Put, hst], hdec⟩
  · refine ⟨{ entries := insertEntry (key_compare.order P) (P.toSlice k) (C.pack v) db.entries },
      by simp [level_pod_map.store, hdb, DB.Put, hst], ?_⟩
    exact valuesDecode_insertEntry P C _ _ _ (by simp [hcodec]) hdec

/-! ## Removal -/

theorem eraseEntry_absent {Key : Type} (P : PodKey Key) (hP : P.StrictTotalOrder)
    (key : Slice) (es : List Entry)
    (habs : P.ofSlice key ∉ es.map (fun e => P.ofSlice e.1)) :
    eraseEntry (key_compare.order P) key es = es := by
  unfold eraseEntry
  rw [List.filter_eq_self]
  intro e he
  have h1 : ¬ key_compare.order P e.1 key = 0 := by
    intro h
    apply habs
    rw [← (order_eq_zero_iff P hP _ _).1 h]
    exact List.mem_map.2 ⟨e, he, rfl⟩
  simp [h1]

/-- C5, the code at a failing input: on an open map holding key 1 only, with the
engine reporting ok for the deletion of the missing key 2 (as LevelDB does for a
key it does not hold), `remove(2)` returns normally; no
`key_not_found_exception` reaches the caller. -/
theorem remove_absent_key_returns_normally :
    ((openOn [([1, 0, 0, 0], [3])]).remove u32 Status.ok 2 false).1 = Outcome.returned () ∧
    ((openOn [([1, 0, 0, 0], [3])]).remove u32 Status.ok 2 false).1
      ≠ Outcome.thrown Exn.key_not_found_exception ∧
    (2 : Fin 4294967296) ∉ storedKeys u32 { entries := [([1, 0, 0, 0], [3])] } := by
  refine ⟨by decide, by decide, by decide⟩

/-- On an open map and a key that is not stored, `remove(k)` leaves the handle and
its entries unchanged; it fails with `key_not_found_exception` exactly when the
engine reports not-found for the deletion, and returns normally when the
engine reports ok. -/
theorem remove_absent_key {Key : Type} (P : PodKey Key) (hP : P.StrictTotalOrder)
    (hF : P.Faithful) (m : level_pod_map) (db : DB) (st : Status) (k : Key) (sync : Bool)
    (hdb : m._db = some db) (habs : k ∉ storedKeys P db) :
    (m.remove P st k sync).2 = m ∧
    ((m.remove P st k sync).1 = Outcome.thrown Exn.key_not_found_exception
      ↔ st = Status.notFound) ∧
    (st = Status.ok → (m.remove P st k sync).1 = Outcome.returned ()) := by
  have herase : eraseEntry (key_compare.order P) (P.toSlice k) db.entries = db.entries := by
    apply eraseEntry_absent P hP
    rw [hF.ofSlice_toSlice]
    exact habs
  have hm : ({ m with _db := some db } : level_pod_map) = m := by
    cases m
    simp only at hdb
    subst hdb
    rfl
  refine ⟨?_, ?_, ?_⟩
  · cases hst : st.isOk
    · simp [level_pod_map.remove, hdb, DB.Delete, hst, hm]
    · simp [level_pod_map.remove, hdb, DB.Delete, hst, herase, hm]
  · cases st <;>
      simp [level_pod_map.remove, hdb, DB.Delete, Status.isOk, Status.IsNotFound,
        FC_RETHROW_EXCEPTIONS]
  · intro h
    subst h
    simp [level_pod_map.remove, hdb, DB.Delete, Status.isOk, Status.IsNotFound,
      FC_RETHROW_EXCEPTIONS]

/-! ## Positioning -/

theorem lt_of_ascending_getElem {Key : Type} (P : PodKey Key) (es : List Entry)
    (hasc : Ascending P es) (i j : Nat) (hi : i < es.length) (hj : j < es.length)
    (hij : i < j) : P.lt (P.ofSlice es[i].1) (P.ofSlice es[j].1) = true := by
  unfold Ascending at hasc
  rw [List.pairwise_iff_getElem] at hasc
  exact (order_neg_iff P _ _).1 (hasc i j hi hj hij)

/-- The position `Seek` reaches on ascending entries: past the end when every key
is below the target, and otherwise on an entry whose key is not below the
target and is not above any other such key. -/
theorem seek_spec {Key : Type} (P : PodKey Key) (hP : P.StrictTotalOrder) (es : List Entry)
    (hasc : Ascending P es) (target : Slice) :
    (es.findIdx (fun e => decide (0 ≤ key_compare.order P e.1 target)) = es.length ∧
      ∀ e ∈ es, P.lt (P.ofSlice e.1) (P.ofSlice target) = true) ∨
    (∃ e, es.get? (es.findIdx (fun e => decide (0 ≤ key_compare.order P e.1 target))) = some e ∧
      es.findIdx (fun e => decide (0 ≤ key_compare.order P e.1 target)) < es.length ∧
      e ∈ es ∧ P.lt (P.ofSlice e.1) (P.ofSlice target) = false ∧
      ∀ e1 ∈ es, P.lt (P.ofSlice e1.1) (P.ofSlice target) = false →
        P.lt (P.ofSlice e1.1) (P.ofSlice e.1) = false) := by
  generalize hp : (fun e : Entry => decide (0 ≤ key_compare.order P e.1 target)) = p
  have hpe : ∀ e : Entry, p e = true ↔ P.lt (P.ofSlice e.1) (P.ofSlice target) = false := by
    intro e
    rw [← hp]
    simp only [decide_eq_true_eq]
    exact order_nonneg_iff P _ _
  by_cases hlt : es.findIdx p < es.length
  · right
    refine ⟨es[es.findIdx p], ?_, hlt, List.getElem_mem _, ?_, ?_⟩
    · rw [List.get?_eq_getElem?, List.getElem?_eq_getElem hlt]
    · exact (hpe _).1 List.findIdx_getElem
    · intro e1 he1 hge
      obtain ⟨n, hn, hen⟩ := List.getElem_of_mem he1
      have hn1 : ¬ n < es.findIdx p := by
        intro h
        have := List.not_of_lt_findIdx h
        rw [hen, (hpe e1).2 hge] at this
        exact absurd this (by simp)
      rcases Nat.lt_or_ge (es.findIdx p) n with h | h
      · have := lt_of_ascending_getElem P es hasc _ n hlt hn h
        rw [hen] at this
        exact lt_asymm_of P hP _ _ this
      · have hneq : n = es.findIdx p := by omega
        subst hneq
        rw [← hen]
        exact hP.lt_irrefl _
  · left
    have hlen : es.findIdx p = es.length := by
      have hle : es.findIdx p ≤ es.length := List.findIdx_le_length p
      omega
    refine ⟨hlen, ?_⟩
    intro e he
    have h1 := List.findIdx_eq_length.1 hlen e he
    cases h2 : P.lt (P.ofSlice e.1) (P.ofSlice target)
    · rw [(hpe e).2 h2] at h1
      exact absurd h1 (by simp)
    · rfl

/-- The entry `SeekToLast` reaches on ascending entries that are not empty: an
entry whose key is below no key held. -/
theorem seekToLast_spec {Key : Type} (P : PodKey Key) (hP : P.StrictTotalOrder)
    (es : List Entry) (hasc : Ascending P es) (hne : es ≠ []) :
    ∃ e, es.get? (es.length - 1) = some e ∧ es.getLast? = some e ∧ e ∈ es ∧
      ∀ e1 ∈ es, P.lt (P.ofSlice e.1) (P.ofSlice e1.1) = false := by
  have hlen : 0 < es.length := List.length_pos.2 hne
  have hl : es.length - 1 < es.length := by omega
  refine ⟨es[es.length - 1], ?_, ?_, List.getElem_mem _, ?_⟩
  · rw [List.get?_eq_getElem?, List.getElem?_eq_getElem hl]
  · rw [List.getLast?_eq_getElem?, List.getElem?_eq_getElem hl]
  · intro e1 he1
    obtain ⟨n, hn, hen⟩ := List.getElem_of_mem he1
    rcases Nat.lt_or_ge n (es.length - 1) with h | h
    · have := lt_of_ascending_getElem P es hasc n _ hn hl h
      rw [hen] at this
      exact lt_asymm_of P hP _ _ this
    · have hneq : n = es.length - 1 := by omega
      subst hneq
      rw [← hen]
      exact hP.lt_irrefl _

theorem mem_storedKeys {Key : Type} (P : PodKey Key) (db : DB) (j : Key) :
    j ∈ storedKeys P db ↔ ∃ e ∈ db.entries, P.ofSlice e.1 = j := by
  unfold storedKeys
  exact List.mem_map

/-- C3: on an open map, with the engine reporting no fault, `lower_bound(k)` returns
either an invalid cursor, every stored key being below `k`, or a valid cursor
on a stored key that is not below `k` and not above any stored key that is not
below `k`; and when `k` is stored, `find(k)` and `lower_bound(k)` return valid
cursors with key `k` and the same value. -/
theorem lower_bound_correct {Key Value : Type} (P : PodKey Key) (C : Codec Value)
    (hP : P.StrictTotalOrder) (hF : P.Faithful) (m : level_pod_map) (db : DB) (k : Key)
    (hdb : m._db = some db) (hwf : WellFormed P db) :
    ∃ itr, m.lower_bound P Status.ok k = Outcome.returned itr ∧
      ((itr.valid = false ∧ ∀ j ∈ storedKeys P db, P.lt j k = true) ∨
       (itr.valid = true ∧ ∃ j, itr.key P = Outcome.returned j ∧ j ∈ storedKeys P db ∧
          P.lt j k = false ∧
          ∀ j1 ∈ storedKeys P db, P.lt j1 k = false → P.lt j1 j = false)) ∧
      (k ∈ storedKeys P db →
        ∃ itr1, m.find P Status.ok k = Outcome.returned itr1 ∧
          itr1.valid = true ∧ itr.valid = true ∧
          itr1.key P = Outcome.returned k ∧ itr.key P = Outcome.returned k ∧
          itr1.value C = itr.value C) := by
  have hseek := seek_spec P hP db.entries hwf.1 (P.toSlice k)
  rw [hF.ofSlice_toSlice] at hseek
  rcases hseek with ⟨hlen, hall⟩ | ⟨e, hget, hlt, hmem, hge, hmin⟩
  · refine ⟨{ _it := none }, ?_, Or.inl ⟨rfl, ?_⟩, ?_⟩
    · simp [level_pod_map.lower_bound, hdb, FC_RETHROW_EXCEPTIONS, DB.NewIterator, Status.isOk,
        Iterator.Seek, iterator.valid, Iterator.Valid, hlen]
    · intro j hj
      obtain ⟨e, he, hej⟩ := (mem_storedKeys P db j).1 hj
      rw [← hej]
      exact hall e he
    · intro hk
      obtain ⟨e, he, hej⟩ := (mem_storedKeys P db k).1 hk
      have := hall e he
      rw [hej, hP.lt_irrefl] at this
      exact absurd this (by simp)
  · generalize hidx :
      db.entries.findIdx (fun e => decide (0 ≤ key_compare.order P e.1 (P.toSlice k))) = i
      at hget hlt
    have hvalid : iterator.valid ⟨some ⟨db.entries, i, Status.ok⟩⟩ = true := by
      simp [iterator.valid, Iterator.Valid, hlt]
    have hkey : iterator.key P ⟨some ⟨db.entries, i, Status.ok⟩⟩
        = Outcome.returned (P.ofSlice e.1) := by
      simp only [iterator.key, Iterator.current, hget]
      rw [if_pos (hwf.2 e hmem).symm]
    have hlb : m.lower_bound P Status.ok k
        = Outcome.returned ⟨some ⟨db.entries, i, Status.ok⟩⟩ := by
      simp only [level_pod_map.lower_bound, hdb, FC_RETHROW_EXCEPTIONS, DB.NewIterator,
        Status.isOk, Iterator.Seek, if_true, hidx]
      rw [if_pos hvalid]
    refine ⟨⟨some ⟨db.entries, i, Status.ok⟩⟩, hlb,
      Or.inr ⟨hvalid, P.ofSlice e.1, hkey, ?_, hge, ?_⟩, ?_⟩
    · exact (mem_storedKeys P db _).2 ⟨e, hmem, rfl⟩
    · intro j1 hj1 hj1k
      obtain ⟨e1, he1, hej⟩ := (mem_storedKeys P db j1).1 hj1
      rw [← hej] at hj1k ⊢
      exact hmin e1 he1 hj1k
    · intro hk
      obtain ⟨e1, he1, hej⟩ := (mem_storedKeys P db k).1 hk
      have h1 : P.lt k (P.ofSlice e.1) = false := by
        have := hmin e1 he1 (by rw [hej]; exact hP.lt_irrefl k)
        rw [hej] at this
        exact this
      have hek : P.ofSlice e.1 = k := by
        rcases hP.lt_total (P.ofSlice e.1) k with h | h | h
        · rw [hge] at h; exact absurd h (by simp)
        · exact h
        · rw [h1] at h; exact absurd h (by simp)
      rw [hek] at hkey
      refine ⟨_, ?_, hvalid, hvalid, hkey, hkey, rfl⟩
      simp only [level_pod_map.find, hdb, DB.NewIterator, Status.isOk, Iterator.Seek, if_true,
        hidx]
      rw [if_pos hvalid, hkey]
      simp only [(hP.eq_iff k k).2 rfl, if_true, catchDiscard]

theorem lower_bound_correct_witness :
    ∃ itr, (openOn [([1, 0, 0, 0], [3]), ([2, 0, 0, 0], [40]), ([44, 1, 0, 0], [7])]).lower_bound
        u32 Status.ok 2 = Outcome.returned itr ∧
      ((itr.valid = false ∧ ∀ j ∈ storedKeys u32
          { entries := [([1, 0, 0, 0], [3]), ([2, 0, 0, 0], [40]), ([44, 1, 0, 0], [7])] },
            u32.lt j 2 = true) ∨
       (itr.valid = true ∧ ∃ j, itr.key u32 = Outcome.returned j ∧ j ∈ storedKeys u32
          { entries := [([1, 0, 0, 0], [3]), ([2, 0, 0, 0], [40]), ([44, 1, 0, 0], [7])] } ∧
          u32.lt j 2 = false ∧
          ∀ j1 ∈ storedKeys u32
            { entries := [([1, 0, 0, 0], [3]), ([2, 0, 0, 0], [40]), ([44, 1, 0, 0], [7])] },
            u32.lt j1 2 = false → u32.lt j1 j = false)) ∧
      ((2 : Fin 4294967296) ∈ storedKeys u32
          { entries := [([1, 0, 0, 0], [3]), ([2, 0, 0, 0], [40]), ([44, 1, 0, 0], [7])] } →
        ∃ itr1, (openOn [([1, 0, 0, 0], [3]), ([2, 0, 0, 0], [40]), ([44, 1, 0, 0], [7])]).find
            u32 Status.ok 2 = Outcome.returned itr1 ∧
          itr1.valid = true ∧ itr.valid = true ∧
          itr1.key u32 = Outcome.returned 2 ∧ itr.key u32 = Outcome.returned 2 ∧
          itr1.value pages = itr.value pages) :=
  lower_bound_correct u32 pages u32_strictTotalOrder u32_faithful
    (openOn [([1, 0, 0, 0], [3]), ([2, 0, 0, 0], [40]), ([44, 1, 0, 0], [7])])
    { entries := [([1, 0, 0, 0], [3]), ([2, 0, 0, 0], [40]), ([44, 1, 0, 0], [7])] } 2 rfl
    (by decide)

theorem last_on_entry {Key : Type} (P : PodKey Key) (m : level_pod_map) (db : DB) (k0 : Key)
    (e : Entry) (hdb : m._db = some db) (hsz : e.1.length = P.size)
    (hlen : 0 < db.entries.length) (hget : db.entries.get? (db.entries.length - 1) = some e) :
    m.last P Status.ok k0 = Outcome.returned (true, P.ofSlice e.1) := by
  simp only [level_pod_map.last, hdb, FC_RETHROW_EXCEPTIONS, DB.NewIterator, Status.isOk,
    Iterator.SeekToLast, Iterator.Valid, Iterator.current, if_true, hget]
  simp [hlen, hsz.symm]

/-- C9: on an open map, with the engine reporting no fault, both forms of `last`
return false on a map without entries and leave their output parameters as
they were; on a map with entries they return true, set `out_key` to a stored
key that is below no stored key, and the two-argument form sets `out_value`
to the decoding of the value held under that key. -/
theorem last_correct {Key Value : Type} (P : PodKey Key) (C : Codec Value)
    (hP : P.StrictTotalOrder) (m : level_pod_map) (db : DB) (k0 : Key) (v0 : Value)
    (hdb : m._db = some db) (hwf : WellFormed P db) (hdec : ValuesDecode C db.entries) :
    (db.entries = [] →
      m.last P Status.ok k0 = Outcome.returned (false, k0) ∧
      m.last2 P C Status.ok k0 v0 = Outcome.returned (false, k0, v0)) ∧
    (db.entries ≠ [] →
      ∃ e v, e ∈ db.entries ∧ C.unpack e.2 = some v ∧
        P.ofSlice e.1 ∈ storedKeys P db ∧
        (∀ j ∈ storedKeys P db, P.lt (P.ofSlice e.1) j = false) ∧
        m.last P Status.ok k0 = Outcome.returned (true, P.ofSlice e.1) ∧
        m.last2 P C Status.ok k0 v0 = Outcome.returned (true, P.ofSlice e.1, v)) := by
  constructor
  · intro hnil
    simp [level_pod_map.last, level_pod_map.last2, hdb, FC_RETHROW_EXCEPTIONS, DB.NewIterator,
      Status.isOk, Iterator.SeekToLast, Iterator.Valid, hnil]
  · intro hne
    obtain ⟨e, hget, _, hmem, hmax⟩ := seekToLast_spec P hP db.entries hwf.1 hne
    have hlen : 0 < db.entries.length := List.length_pos.2 hne
    have hv := hdec e hmem
    obtain ⟨v, hv1⟩ := Option.isSome_iff_exists.1 hv
    refine ⟨e, v, hmem, hv1, (mem_storedKeys P db _).2 ⟨e, hmem, rfl⟩, ?_, ?_, ?_⟩
    · intro j hj
      obtain ⟨e1, he1, hej⟩ := (mem_storedKeys P db j).1 hj
      rw [← hej]
      exact hmax e1 he1
    · exact last_on_entry P m db k0 e hdb (hwf.2 e hmem) hlen hget
    · simp only [level_pod_map.last2, hdb, FC_RETHROW_EXCEPTIONS, DB.NewIterator, Status.isOk,
        Iterator.SeekToLast, Iterator.Valid, Iterator.current, if_true, hget, hv1]
      simp [hlen, (hwf.2 e hmem).symm]

theorem last_correct_witness :
    ((DB.mk [([1, 0, 0, 0], [3]), ([44, 1, 0, 0], [7])]).entries = [] →
      (openOn [([1, 0, 0, 0], [3]), ([44, 1, 0, 0], [7])]).last u32 Status.ok 0
        = Outcome.returned (false, 0) ∧
      (openOn [([1, 0, 0, 0], [3]), ([44, 1, 0, 0], [7])]).last2 u32 pages Status.ok 0 0
        = Outcome.returned (false, 0, 0)) ∧
    ((DB.mk [([1, 0, 0, 0], [3]), ([44, 1, 0, 0], [7])]).entries ≠ [] →
      ∃ e v, e ∈ (DB.mk [([1, 0, 0, 0], [3]), ([44, 1, 0, 0], [7])]).entries ∧
        pages.unpack e.2 = some v ∧
        u32.ofSlice e.1 ∈ storedKeys u32 (DB.mk [([1, 0, 0, 0], [3]), ([44, 1, 0, 0], [7])]) ∧
        (∀ j ∈ storedKeys u32 (DB.mk [([1, 0, 0, 0], [3]), ([44, 1, 0, 0], [7])]),
          u32.lt (u32.ofSlice e.1) j = false) ∧
        (openOn [([1, 0, 0, 0], [3]), ([44, 1, 0, 0], [7])]).last u32 Status.ok 0
          = Outcome.returned (true, u32.ofSlice e.1) ∧
        (openOn [([1, 0, 0, 0], [3]), ([44, 1, 0, 0], [7])]).last2 u32 pages Status.ok 0 0
          = Outcome.returned (true, u32.ofSlice e.1, v)) :=
  last_correct u32 pages u32_strictTotalOrder (openOn [([1, 0, 0, 0], [3]), ([44, 1, 0, 0], [7])])
    (DB.mk [([1, 0, 0, 0], [3]), ([44, 1, 0, 0], [7])]) 0 0 rfl (by decide) (by decide)

/-! ## Traversal -/

theorem keysFrom_spec {Key : Type} (P : PodKey Key) (es : List Entry) (hs : KeysSized P es)
    (st : Status) : ∀ (fuel pos : Nat), es.length - pos ≤ fuel →
      iterator.keysFrom P fuel ⟨some ⟨es, pos, st⟩⟩
        = some ((es.drop pos).map (fun e => Outcome.returned (P.ofSlice e.1))) := by
  intro fuel
  induction fuel with
  | zero =>
    intro pos hle
    have h1 : ¬ pos < es.length := by omega
    have h2 : es.drop pos = [] := List.drop_eq_nil_of_le (by omega)
    simp [iterator.keysFrom, iterator.valid, Iterator.Valid, h1, h2]
  | succ fuel ih =>
    intro pos hle
    by_cases h1 : pos < es.length
    · have hvalid : iterator.valid ⟨some ⟨es, pos, st⟩⟩ = true := by
        simp [iterator.valid, Iterator.Valid, h1]
      have hnext : iterator.operator_inc ⟨some ⟨es, pos, st⟩⟩ = ⟨some ⟨es, pos + 1, st⟩⟩ := by
        simp [iterator.operator_inc, Iterator.Next, Iterator.Valid, h1]
      have hkey : iterator.key P ⟨some ⟨es, pos, st⟩⟩ = Outcome.returned (P.ofSlice es[pos].1) := by
        simp only [iterator.key, Iterator.current, List.get?_eq_getElem?,
          List.getElem?_eq_getElem h1]
        rw [if_pos (hs _ (List.getElem_mem _)).symm]
      have hdrop : es.drop pos = es[pos] :: es.drop (pos + 1) := List.drop_eq_getElem_cons h1
      unfold iterator.keysFrom
      rw [if_pos hvalid, hnext, ih (pos + 1) (by omega), hkey, hdrop]
      rfl
    · have h2 : es.drop pos = [] := List.drop_eq_nil_of_le (by omega)
      simp [iterator.keysFrom, iterator.valid, Iterator.Valid, h1, h2]

theorem self_mem_insertEntry {Key : Type} (P : PodKey Key) (key value : Slice)
    (es : List Entry) : (key, value) ∈ insertEntry (key_compare.order P) key value es := by
  induction es with
  | nil => simp [insertEntry]
  | cons e es ih =>
    unfold insertEntry
    by_cases h1 : key_compare.order P key e.1 < 0
    · rw [if_pos h1]; exact List.mem_cons_self _ _
    · rw [if_neg h1]
      by_cases h2 : key_compare.order P key e.1 = 0
      · rw [if_pos h2]; exact List.mem_cons_self _ _
      · rw [if_neg h2]; exact List.mem_cons_of_mem _ ih

theorem mem_insertEntry_of_mem {Key : Type} (P : PodKey Key) (key value : Slice)
    (es : List Entry) (b : Entry) (hb : b ∈ es) :
    b ∈ insertEntry (key_compare.order P) key value es ∨ key_compare.order P key b.1 = 0 := by
  induction es with
  | nil => simp at hb
  | cons e es ih =>
    unfold insertEntry
    by_cases h1 : key_compare.order P key e.1 < 0
    · rw [if_pos h1]; exact Or.inl (List.mem_cons_of_mem _ hb)
    · rw [if_neg h1]
      by_cases h2 : key_compare.order P key e.1 = 0
      · rw [if_pos h2]
        rcases List.mem_cons.1 hb with h | h
        · rw [h]; exact Or.inr h2
        · exact Or.inl (List.mem_cons_of_mem _ h)
      · rw [if_neg h2]
        rcases List.mem_cons.1 hb with h | h
        · rw [h]; exact Or.inl (List.mem_cons_self _ _)
        · rcases ih h with h3 | h3
          · exact Or.inl (List.mem_cons_of_mem _ h3)
          · exact Or.inr h3

theorem mem_keys_insertEntry {Key : Type} (P : PodKey Key) (hP : P.StrictTotalOrder)
    (key value : Slice) (es : List Entry) (j : Key) :
    j ∈ storedKeys P { entries := insertEntry (key_compare.order P) key value es }
      ↔ j = P.ofSlice key ∨ j ∈ storedKeys P { entries := es } := by
  rw [mem_storedKeys, mem_storedKeys]
  constructor
  · rintro ⟨e, he, hej⟩
    rcases mem_insertEntry P key value es e he with h | h
    · left; rw [← hej, h]
    · right; exact ⟨e, h, hej⟩
  · rintro (h | ⟨e, he, hej⟩)
    · exact ⟨(key, value), self_mem_insertEntry P key value es, h.symm⟩
    · rcases mem_insertEntry_of_mem P key value es e he with h | h
      · exact ⟨e, h, hej⟩
      · refine ⟨(key, value), self_mem_insertEntry P key value es, ?_⟩
        rw [← hej]
        exact (order_eq_zero_iff P hP _ _).1 h

/-- The database a sequence of `store` calls leaves: well formed, and holding the
keys held before together with the keys of the calls for which the engine
reported ok. -/
theorem storeAll_spec {Key Value : Type} (P : PodKey Key) (C : Codec Value)
    (hP : P.StrictTotalOrder) (hF : P.Faithful) (calls : List (StoreCall Key Value)) :
    ∀ (m : level_pod_map) (db : DB), m._db = some db → WellFormed P db →
      ∃ db1, (m.storeAll P C calls)._db = some db1 ∧ WellFormed P db1 ∧
        ∀ j, j ∈ storedKeys P db1 ↔
          (j ∈ storedKeys P db ∨ ∃ c ∈ calls, c.st = Status.ok ∧ c.k = j) := by
  induction calls with
  | nil =>
    intro m db hdb hwf
    exact ⟨db, hdb, hwf, fun j => by simp⟩
  | cons c cs ih =>
    intro m db hdb hwf
    cases hst : c.st with
    | ok =>
      have hdb1 : (m.store P C c.st c.k c.v c.sync).2._db
          = some (DB.mk (insertEntry (key_compare.order P) (P.toSlice c.k) (C.pack c.v)
              db.entries)) := by
        simp [level_pod_map.store, hdb, DB.Put, hst, Status.isOk]
      have hwf1 : WellFormed P (DB.mk (insertEntry (key_compare.order P) (P.toSlice c.k)
          (C.pack c.v) db.entries)) :=
        ⟨ascending_insertEntry P hP _ _ _ hwf.1,
          keysSized_insertEntry P _ _ _ (hF.length_toSlice c.k) hwf.2⟩
      obtain ⟨db1, h1, h2, h3⟩ := ih _ _ hdb1 hwf1
      refine ⟨db1, h1, h2, ?_⟩
      intro j
      rw [h3 j, mem_keys_insertEntry P hP, hF.ofSlice_toSlice]
      constructor
      · rintro ((h | h) | ⟨c1, hc1, hc2⟩)
        · exact Or.inr ⟨c, List.mem_cons_self _ _, hst, h.symm⟩
        · exact Or.inl h
        · exact Or.inr ⟨c1, List.mem_cons_of_mem _ hc1, hc2⟩
      · rintro (h | ⟨c1, hc1, hc2, hc3⟩)
        · exact Or.inl (Or.inr h)
        · rcases List.mem_cons.1 hc1 with h | h
          · subst h
            exact Or.inl (Or.inl hc3.symm)
          · exact Or.inr ⟨c1, h, hc2, hc3⟩
    | notFound | corruption | ioError =>
      have hdb1 : (m.store P C c.st c.k c.v c.sync).2._db = some db := by
        simp [level_pod_map.store, hdb, DB.Put, hst, Status.isOk]
      obtain ⟨db1, h1, h2, h3⟩ := ih _ _ hdb1 hwf
      refine ⟨db1, h1, h2, ?_⟩
      intro j
      rw [h3 j]
      constructor
      · rintro (h | ⟨c1, hc1, hc2⟩)
        · exact Or.inl h
        · exact Or.inr ⟨c1, List.mem_cons_of_mem _ hc1, hc2⟩
      · rintro (h | ⟨c1, hc1, hc2, hc3⟩)
        · exact Or.inl h
        · rcases List.mem_cons.1 hc1 with h | h
          · subst h
            rw [hst] at hc2
            exact absurd hc2 (by simp)
          · exact Or.inr ⟨c1, h, hc2, hc3⟩

theorem wellFormed_empty {Key : Type} (P : PodKey Key) : WellFormed P (DB.mk []) := by
  constructor
  · simp [Ascending]
  · intro e he
    simp at he

/-- C4: on a map built from an empty open map by any sequence of `store` calls and
holding at least one entry, with the engine reporting no fault, `begin()`
returns a cursor from which `key()`, `operator++` and `valid()` read a
sequence of keys (the loop ends within as many steps as there are keys) that
is non-decreasing under the native order, holds exactly the keys of the calls
the engine accepted, and ends on the key that `last(out_key)` writes. -/
theorem begin_advance_ordered {Key Value : Type} (P : PodKey Key) (C : Codec Value)
    (hP : P.StrictTotalOrder) (hF : P.Faithful) (m0 : level_pod_map)
    (calls : List (StoreCall Key Value)) (db : DB) (h0 : m0._db = some (DB.mk []))
    (hdb : (m0.storeAll P C calls)._db = some db) (hne : db.entries ≠ []) :
    ∃ (itr : iterator) (ks : List Key) (klast : Key),
      (m0.storeAll P C calls).begin Status.ok = Outcome.returned itr ∧
      (∀ fuel, ks.length ≤ fuel → itr.keysFrom P fuel = some (ks.map Outcome.returned)) ∧
      ks.Pairwise (fun a b => P.lt b a = false) ∧
      (∀ c ∈ calls, c.st = Status.ok → c.k ∈ ks) ∧
      (∀ j ∈ ks, ∃ c ∈ calls, c.st = Status.ok ∧ c.k = j) ∧
      ks.getLast? = some klast ∧
      ∀ k0, (m0.storeAll P C calls).last P Status.ok k0 = Outcome.returned (true, klast) := by
  obtain ⟨db1, h1, hwf, hkeys⟩ := storeAll_spec P C hP hF calls m0 (DB.mk []) h0
    (wellFormed_empty P)
  rw [hdb] at h1
  have hdb1 : db1 = db := (Option.some.inj h1).symm
  subst hdb1
  have hlen : 0 < db1.entries.length := List.length_pos.2 hne
  obtain ⟨e, hget, hgl, hmem, _⟩ := seekToLast_spec P hP db1.entries hwf.1 hne
  refine ⟨⟨some ⟨db1.entries, 0, Status.ok⟩⟩, storedKeys P db1, P.ofSlice e.1,
    ?_, ?_, ?_, ?_, ?_, ?_, ?_⟩
  · simp [level_pod_map.begin, hdb, DB.NewIterator, Status.isOk, Iterator.SeekToFirst,
      Iterator.status, Status.IsNotFound, iterator.valid, Iterator.Valid, hlen, catchDiscard]
  · intro fuel hfuel
    have hl : (storedKeys P db1).length = db1.entries.length := by simp [storedKeys]
    rw [keysFrom_spec P db1.entries hwf.2 Status.ok fuel 0 (by omega)]
    simp [storedKeys, List.map_map, Function.comp_def]
  · unfold storedKeys
    rw [List.pairwise_map]
    have hasc := hwf.1
    unfold Ascending at hasc
    refine List.Pairwise.imp ?_ hasc
    intro a b hab
    exact lt_asymm_of P hP _ _ ((order_neg_iff P _ _).1 hab)
  · intro c hc hst
    exact (hkeys c.k).2 (Or.inr ⟨c, hc, hst, rfl⟩)
  · intro j hj
    rcases (hkeys j).1 hj with h | h
    · simp [storedKeys] at h
    · exact h
  · simp [storedKeys, hgl]
  · intro k0
    exact last_on_entry P _ db1 k0 e hdb (hwf.2 e hmem) hlen hget

theorem begin_advance_ordered_witness :
    ∃ (itr : iterator) (ks : List (Fin 4294967296)) (klast : Fin 4294967296),
      ((openOn []).storeAll u32 pages
          [⟨Status.ok, 2, 40, false⟩, ⟨Status.ioError, 9, 1, false⟩, ⟨Status.ok, 1, 3, true⟩,
            ⟨Status.ok, 300, 7, false⟩]).begin Status.ok = Outcome.returned itr ∧
      (∀ fuel, ks.length ≤ fuel → itr.keysFrom u32 fuel = some (ks.map Outcome.returned)) ∧
      ks.Pairwise (fun a b => u32.lt b a = false) ∧
      (∀ c ∈ ([⟨Status.ok, 2, 40, false⟩, ⟨Status.ioError, 9, 1, false⟩, ⟨Status.ok, 1, 3, true⟩,
            ⟨Status.ok, 300, 7, false⟩] : List (StoreCall (Fin 4294967296) (Fin 256))),
          c.st = Status.ok → c.k ∈ ks) ∧
      (∀ j ∈ ks, ∃ c ∈ ([⟨Status.ok, 2, 40, false⟩, ⟨Status.ioError, 9, 1, false⟩,
            ⟨Status.ok, 1, 3, true⟩, ⟨Status.ok, 300, 7, false⟩] :
              List (StoreCall (Fin 4294967296) (Fin 256))),
          c.st = Status.ok ∧ c.k = j) ∧
      ks.getLast? = some klast ∧
      ∀ k0, ((openOn []).storeAll u32 pages
          [⟨Status.ok, 2, 40, false⟩, ⟨Status.ioError, 9, 1, false⟩, ⟨Status.ok, 1, 3, true⟩,
            ⟨Status.ok, 300, 7, false⟩]).last u32 Status.ok k0
        = Outcome.returned (true, klast) :=
  begin_advance_ordered u32 pages u32_strictTotalOrder u32_faithful (openOn [])
    [⟨Status.ok, 2, 40, false⟩, ⟨Status.ioError, 9, 1, false⟩, ⟨Status.ok, 1, 3, true⟩,
      ⟨Status.ok, 300, 7, false⟩]
    (DB.mk [([1, 0, 0, 0], [3]), ([2, 0, 0, 0], [40]), ([44, 1, 0, 0], [7])])
    rfl (by decide) (by decide)

end chainbase.db
